import Mathlib

/-!
Verification development for the gmpxx_mkII floating-point wrapper
(mpf_class) in standard (precision-change) mode.

Shallow embedding: an mpf_t value is modelled as a pair of its bit
precision and its stored magnitude as a rational number.  The underlying
GMP engine is an external collaborator; its rounding behaviour is kept
abstract as a parameter of the relevant definitions:

* rnd  : Nat -> Rat -> Rat   -- mpf_set / mpf_add / ... round their exact
                                rational result into the destination
                                precision
* sqrtE : Nat -> Rat -> Rat  -- mpf_sqrt computed at the destination
                                precision

Exact operations (sign flip, absolute value, multiplication and division
by powers of two with unchanged precision, comparison of stored values,
storing small integers and small dyadic doubles) are modelled exactly,
matching GMP semantics at every call site that appears in the sources.

Loops of the source (while (!converged) ...) are modelled with an explicit
fuel argument returning an Option; running out of fuel yields none.
-/

namespace GmpxxMkII

/-- Model of an mpf_t: its precision in bits plus the stored value. -/
structure Mpf where
  prec : Nat
  val  : ℚ
  deriving Repr, DecidableEq

/-- mpf_init: zero value at the current default precision. -/
def mpfInit (defaultPrec : Nat) : Mpf := ⟨defaultPrec, 0⟩

/-- mpf_init2: zero value at an explicitly requested precision. -/
def mpfInit2 (p : Nat) : Mpf := ⟨p, 0⟩

/-- mpf_set dst src: round the source value into the destination precision. -/
def mpfSet (rnd : Nat → ℚ → ℚ) (dst src : Mpf) : Mpf :=
  ⟨dst.prec, rnd dst.prec src.val⟩

/-- mpf_add dst a b: the exact sum rounded into the destination precision. -/
def mpfAdd (rnd : Nat → ℚ → ℚ) (dst a b : Mpf) : Mpf :=
  ⟨dst.prec, rnd dst.prec (a.val + b.val)⟩

/-- mpf_sub dst a b. -/
def mpfSub (rnd : Nat → ℚ → ℚ) (dst a b : Mpf) : Mpf :=
  ⟨dst.prec, rnd dst.prec (a.val - b.val)⟩

/-- mpf_mul dst a b. -/
def mpfMul (rnd : Nat → ℚ → ℚ) (dst a b : Mpf) : Mpf :=
  ⟨dst.prec, rnd dst.prec (a.val * b.val)⟩

/-- mpf_div dst a b (division by a zero value is out of scope of the
claims; the rational convention q / 0 = 0 stands in for the engine's
behaviour there). -/
def mpfDiv (rnd : Nat → ℚ → ℚ) (dst a b : Mpf) : Mpf :=
  ⟨dst.prec, rnd dst.prec (a.val / b.val)⟩

/-- mpf_sqrt dst src, computed by the engine at the destination precision. -/
def mpfSqrt (sqrtE : Nat → ℚ → ℚ) (dst src : Mpf) : Mpf :=
  ⟨dst.prec, sqrtE dst.prec src.val⟩

/-- largerprec (source: inline mp_bitcnt_t largerprec(const mpf_class &,
const mpf_class &)): the larger of the two operand precisions. -/
def largerprec (op1 op2 : Mpf) : Nat :=
  if op1.prec > op2.prec then op1.prec else op2.prec

/-- Copy constructor mpf_class(const mpf_class &op) in standard mode:
mpf_init2 at the source precision, then mpf_set. -/
def copyCtor (rnd : Nat → ℚ → ℚ) (op : Mpf) : Mpf :=
  mpfSet rnd (mpfInit2 op.prec) op

/-- Constructor mpf_class(const mpf_class &op, mp_bitcnt_t prec):
mpf_init2 at the requested precision, then mpf_set. -/
def copyCtorPrec (rnd : Nat → ℚ → ℚ) (op : Mpf) (p : Nat) : Mpf :=
  mpfSet rnd (mpfInit2 p) op

/-- Copy assignment operator=(const mpf_class &op) in standard mode, on
distinct objects: the destination is reinitialized at its own
pre-assignment precision (mpf_init2(value, mpf_get_prec(this))), then
the source value is rounded into it (mpf_set). -/
def opAssign (rnd : Nat → ℚ → ℚ) (this op : Mpf) : Mpf :=
  mpfSet rnd (mpfInit2 this.prec) op

/-- Assignment operator=(double d): mpf_set_d keeps the destination's
precision; the small dyadic doubles assigned by the sources are stored
exactly. -/
def opAssignD (x : Mpf) (d : ℚ) : Mpf := ⟨x.prec, d⟩

/-- operator+(const mpf_class &, const mpf_class &) in standard mode:
a default-constructed result is reinitialized with mpf_init2 at
largerprec(op1, op2) and receives the sum (the initial default-precision
init is dead and elided here). -/
def addOp (rnd : Nat → ℚ → ℚ) (op1 op2 : Mpf) : Mpf :=
  mpfAdd rnd (mpfInit2 (largerprec op1 op2)) op1 op2

/-- operator-(const mpf_class &, const mpf_class &) in standard mode. -/
def subOp (rnd : Nat → ℚ → ℚ) (op1 op2 : Mpf) : Mpf :=
  mpfSub rnd (mpfInit2 (largerprec op1 op2)) op1 op2

/-- operator*(const mpf_class &, const mpf_class &) in standard mode. -/
def mulOp (rnd : Nat → ℚ → ℚ) (op1 op2 : Mpf) : Mpf :=
  mpfMul rnd (mpfInit2 (largerprec op1 op2)) op1 op2

/-- operator/(const mpf_class &, const mpf_class &) in standard mode. -/
def divOp (rnd : Nat → ℚ → ℚ) (op1 op2 : Mpf) : Mpf :=
  mpfDiv rnd (mpfInit2 (largerprec op1 op2)) op1 op2

/-- sqrt(const mpf_class &op): mpf_class rop(op); mpf_sqrt(rop, op).
The copy fixes rop's precision to op's; mpf_sqrt then overwrites the
value, computed at that same precision. -/
def sqrtFn (rnd : Nat → ℚ → ℚ) (sqrtE : Nat → ℚ → ℚ) (op : Mpf) : Mpf :=
  mpfSqrt sqrtE (copyCtor rnd op) op

/-- abs(const mpf_class &op): copy then mpf_abs.  Taking the absolute
value at an equal precision is exact, so the copy's rounded value is
simply overwritten by the exact |op|. -/
def absFn (op : Mpf) : Mpf := ⟨op.prec, |op.val|⟩

/-- Unary operator-(const mpf_class &op): copy then mpf_neg.  Negation at
an equal precision is exact. -/
def negOp (op : Mpf) : Mpf := ⟨op.prec, -op.val⟩

/-- floor(const mpf_class &op): copy then mpf_floor.  Modelled as the
exact floor (at its use site the result is immediately converted to a
machine integer, so representability of the integer part is assumed). -/
def floorFn (op : Mpf) : Mpf := ⟨op.prec, (⌊op.val⌋ : ℤ)⟩

/-- mpf_class::get_si on an integer-valued mpf (the only use in scope is
on a floor result, where truncation and floor agree). -/
def Mpf.getSi (x : Mpf) : ℤ := ⌊x.val⌋

/-- mpf_class::div_2exp(exp): in-place exact division by a power of two
(a pure exponent shift in the engine; the precision is unchanged). -/
def Mpf.div2exp (x : Mpf) (e : Nat) : Mpf := ⟨x.prec, x.val / 2 ^ e⟩

/-- mpf_class::mul_2exp(exp): in-place exact multiplication by a power of
two. -/
def Mpf.mul2exp (x : Mpf) (e : Nat) : Mpf := ⟨x.prec, x.val * 2 ^ e⟩

/-- mpf_class::mul_2exp with a signed exponent as used by log(x) on the
extracted binary exponent m (the mathematical intent; the source performs
an unsigned conversion of the mp_exp_t argument, which agrees for m >= 0,
the regime exercised by the claims). -/
def Mpf.mul2expZ (x : Mpf) (e : ℤ) : Mpf := ⟨x.prec, x.val * (2 : ℚ) ^ e⟩

/-- operator< via mpf_cmp: exact comparison of the stored values. -/
def ltOp (a b : Mpf) : Bool := a.val < b.val

/-- mpf_class(double) without explicit precision: mpf_init_set_d at the
current default precision.  Every double literal appearing in the sources
(0.0, 0.25, 1.0, 2.0, 4.0) is a small dyadic rational stored exactly. -/
def fromDouble (defaultPrec : Nat) (d : ℚ) : Mpf := ⟨defaultPrec, d⟩

/-- mpf_class(double, mp_bitcnt_t prec): mpf_init2 then mpf_set_d; the
small dyadic doubles used by the sources are stored exactly. -/
def fromDoublePrec (d : ℚ) (p : Nat) : Mpf := ⟨p, d⟩

/-- mpf_class(signed long) at the current default precision; 64-bit
integers are stored exactly by the engine. -/
def fromSi (defaultPrec : Nat) (n : ℤ) : Mpf := ⟨defaultPrec, (n : ℚ)⟩

/-- mpf_class(signed long, mp_bitcnt_t prec). -/
def fromSiPrec (n : ℤ) (p : Nat) : Mpf := ⟨p, (n : ℚ)⟩

/-- mpf_class(unsigned long) at the current default precision. -/
def fromUi (defaultPrec : Nat) (n : Nat) : Mpf := ⟨defaultPrec, (n : ℚ)⟩

/-- mpf_class(unsigned long, mp_bitcnt_t prec). -/
def fromUiPrec (n : Nat) (p : Nat) : Mpf := ⟨p, (n : ℚ)⟩

/-- Mixed operator*(const mpf_class &op1, T op2) for a signed integer
op2: mpf_class result(op2) is built at the current default precision and
mpf_mul(result, op1, result) rounds the product into that precision.
The form op2 * op1 with the integer on the left forwards to this one. -/
def mulSi (rnd : Nat → ℚ → ℚ) (defaultPrec : Nat) (op1 : Mpf) (op2 : ℤ) : Mpf :=
  mpfMul rnd (fromSi defaultPrec op2) op1 (fromSi defaultPrec op2)

/-- The mutable local variables of the Gauss-Legendre loop in
const_pi() / const_pi(mp_bitcnt_t). -/
structure PiVars where
  a : Mpf
  b : Mpf
  t : Mpf
  p : Mpf
  aNext : Mpf
  bNext : Mpf
  tNext : Mpf
  tmpPi : Mpf
  piPrev : Mpf
  tmp : Mpf
  deriving Repr, DecidableEq

/-- One iteration of the Gauss-Legendre loop, shared verbatim by both
const_pi entry points:
a_next = (a + b) / two; b_next = sqrt(a * b);
t_next = t - p * (a - a_next) * (a - a_next); p = two * p;
a = a_next; b = b_next; t = t_next;
pi_previous = tmp_pi; tmp_pi = (a + b) * (a + b) / (four * t).
All updates of the named locals are copy assignments (operator=),
which reinitialize at the assignee's own precision. -/
def piStep (rnd sqrtE : Nat → ℚ → ℚ) (two four : Mpf) (v : PiVars) : PiVars :=
  let aN := opAssign rnd v.aNext (divOp rnd (addOp rnd v.a v.b) two)
  let bN := opAssign rnd v.bNext (sqrtFn rnd sqrtE (mulOp rnd v.a v.b))
  let tN := opAssign rnd v.tNext
    (subOp rnd v.t (mulOp rnd (mulOp rnd v.p (subOp rnd v.a aN)) (subOp rnd v.a aN)))
  let pN := opAssign rnd v.p (mulOp rnd two v.p)
  let aU := opAssign rnd v.a aN
  let bU := opAssign rnd v.b bN
  let tU := opAssign rnd v.t tN
  let prev := opAssign rnd v.piPrev v.tmpPi
  let piU := opAssign rnd v.tmpPi
    (divOp rnd (mulOp rnd (addOp rnd aU bU) (addOp rnd aU bU)) (mulOp rnd four tU))
  { a := aU, b := bU, t := tU, p := pN, aNext := aN, bNext := bN, tNext := tN,
    tmpPi := piU, piPrev := prev, tmp := v.tmp }

/-- The while (!converged) loop of the zero-argument const_pi():
convergence is tested as abs(tmp_pi - pi_previous) < epsilon directly. -/
def piLoopZ (rnd sqrtE : Nat → ℚ → ℚ) (two four epsilon : Mpf) :
    Nat → PiVars → Option PiVars
  | 0, _ => none
  | fuel + 1, v =>
    if ltOp (absFn (subOp rnd (piStep rnd sqrtE two four v).tmpPi
        (piStep rnd sqrtE two four v).piPrev)) epsilon then
      some (piStep rnd sqrtE two four v)
    else piLoopZ rnd sqrtE two four epsilon fuel (piStep rnd sqrtE two four v)

/-- The loop body of const_pi(mp_bitcnt_t): the shared Gauss-Legendre
step followed by tmp = abs(tmp_pi - pi_previous). -/
def piStepP (rnd sqrtE : Nat → ℚ → ℚ) (two four : Mpf) (v : PiVars) : PiVars :=
  let v2 := piStep rnd sqrtE two four v
  { v2 with tmp := opAssign rnd v2.tmp (absFn (subOp rnd v2.tmpPi v2.piPrev)) }

/-- The while (!converged) loop of const_pi(mp_bitcnt_t): the same step,
but the convergence quantity is first assigned into the local tmp
(tmp = abs(tmp_pi - pi_previous); if (tmp < epsilon) ...). -/
def piLoopP (rnd sqrtE : Nat → ℚ → ℚ) (two four epsilon : Mpf) :
    Nat → PiVars → Option PiVars
  | 0, _ => none
  | fuel + 1, v =>
    if ltOp (piStepP rnd sqrtE two four v).tmp epsilon then
      some (piStepP rnd sqrtE two four v)
    else piLoopP rnd sqrtE two four epsilon fuel (piStepP rnd sqrtE two four v)

/-- The initial loop variables of const_pi(mp_bitcnt_t req_precision):
every local is materialized at req_precision (explicit-precision
constructors for the constants, copy constructors for the variables). -/
def piInitVarsP (rnd sqrtE : Nat → ℚ → ℚ) (req : Nat) : PiVars :=
  let zero := fromDoublePrec 0 req
  let quarter := fromDoublePrec (1 / 4) req
  let one := fromDoublePrec 1 req
  let two := fromDoublePrec 2 req
  { a := copyCtor rnd one,
    b := copyCtor rnd (divOp rnd one (sqrtFn rnd sqrtE two)),
    t := copyCtor rnd quarter,
    p := copyCtor rnd one,
    aNext := copyCtor rnd zero,
    bNext := copyCtor rnd zero,
    tNext := copyCtor rnd zero,
    tmpPi := copyCtor rnd zero,
    piPrev := copyCtor rnd zero,
    tmp := copyCtor rnd zero }

/-- mpf_class const_pi(mp_bitcnt_t req_precision): the fresh,
non-cached computation.  epsilon = one; epsilon.div_2exp(req_precision);
the loop runs to convergence; calculated_pi = tmp_pi is returned. -/
def constPiPrec (rnd sqrtE : Nat → ℚ → ℚ) (req : Nat) (fuel : Nat) : Option Mpf :=
  let zero := fromDoublePrec 0 req
  let one := fromDoublePrec 1 req
  let two := fromDoublePrec 2 req
  let four := fromDoublePrec 4 req
  let calculatedPi := copyCtor rnd zero
  let epsilon := Mpf.div2exp (opAssign rnd (copyCtor rnd zero) one) req
  match piLoopP rnd sqrtE two four epsilon fuel (piInitVarsP rnd sqrtE req) with
  | none => none
  | some v2 => some (opAssign rnd calculatedPi v2.tmpPi)

/-- The recomputation body of the zero-argument const_pi(): all locals
are built at the current default precision (mpf_get_default_prec());
the result is the local tmp_pi after convergence. -/
def constPiZeroCompute (rnd sqrtE : Nat → ℚ → ℚ) (dp : Nat) (fuel : Nat) : Option Mpf :=
  let one := fromDouble dp 1
  let two := fromDouble dp 2
  let four := fromDouble dp 4
  let v : PiVars :=
    { a := copyCtor rnd one,
      b := copyCtor rnd (divOp rnd one (sqrtFn rnd sqrtE two)),
      t := copyCtor rnd (fromDouble dp (1 / 4)),
      p := copyCtor rnd one,
      aNext := mpfInit dp,
      bNext := mpfInit dp,
      tNext := mpfInit dp,
      tmpPi := mpfInit dp,
      piPrev := mpfInit dp,
      tmp := mpfInit dp }
  let epsilon := Mpf.div2exp (copyCtor rnd one) dp
  match piLoopZ rnd sqrtE two four epsilon fuel v with
  | none => none
  | some v2 => some v2.tmpPi

/-- The process-wide memo slot attached to a zero-argument cached
constant: the static flag calculated, the static precision tag
calculated_XX_precision, and the cached mpf_class value. -/
structure ConstCache where
  calculated : Bool
  calcPrec : Nat
  cached : Mpf
  deriving Repr, DecidableEq

/-- The recompute branch of the zero-argument const_pi(): the slot is
first cleared (pi_cached = mpf_class(); an assignment that keeps the
slot's own precision), the precision tag is set to the current default,
the Gauss-Legendre loop runs at that precision, and its result is
assigned into the slot (again through operator=).  The function returns
a copy of the global slot (return pi_cached). -/
def constPiZeroRecompute (rnd sqrtE : Nat → ℚ → ℚ) (dp : Nat) (fuel : Nat)
    (st : ConstCache) : Option (Mpf × ConstCache) :=
  let cleared := opAssign rnd st.cached (mpfInit dp)
  match constPiZeroCompute rnd sqrtE dp fuel with
  | none => none
  | some tmpPi =>
    let slot := opAssign rnd cleared tmpPi
    some (copyCtor rnd slot, { calculated := true, calcPrec := dp, cached := slot })

/-- mpf_class const_pi() (zero-argument, memoized): recompute when
!calculated || (calculated && calculated_pi_precision != _default_prec),
otherwise return a copy of the cached slot with the state untouched. -/
def constPiZero (rnd sqrtE : Nat → ℚ → ℚ) (dp : Nat) (fuel : Nat)
    (st : ConstCache) : Option (Mpf × ConstCache) :=
  if !st.calculated || (st.calculated && st.calcPrec ≠ dp) then
    constPiZeroRecompute rnd sqrtE dp fuel st
  else
    some (copyCtor rnd st.cached, st)

/-- The mutable a, b, a_next, b_next of the plain AGM loop shared by
const_log2(), const_log2(mp_bitcnt_t) and log(x). -/
structure AgmVars where
  a : Mpf
  b : Mpf
  aNext : Mpf
  bNext : Mpf
  deriving Repr, DecidableEq

/-- One iteration of the plain AGM loop:
a_next = (a + b) / two; b_next = sqrt(a * b); a = a_next; b = b_next. -/
def agmStep (rnd sqrtE : Nat → ℚ → ℚ) (two : Mpf) (v : AgmVars) : AgmVars :=
  let aN := opAssign rnd v.aNext (divOp rnd (addOp rnd v.a v.b) two)
  let bN := opAssign rnd v.bNext (sqrtFn rnd sqrtE (mulOp rnd v.a v.b))
  { a := opAssign rnd v.a aN, b := opAssign rnd v.b bN, aNext := aN, bNext := bN }

/-- The while (!converged) loop of the log2/log AGM: a_next and b_next
are computed, convergence is tested on the pre-update a and b
(if (abs(a - b) < epsilon) converged = true;), and a and b are updated
before the loop condition is re-examined, so the final state is the
updated one even on the converging pass. -/
def agmLoop (rnd sqrtE : Nat → ℚ → ℚ) (two epsilon : Mpf) :
    Nat → AgmVars → Option AgmVars
  | 0, _ => none
  | fuel + 1, v =>
    if ltOp (absFn (subOp rnd v.a v.b)) epsilon then some (agmStep rnd sqrtE two v)
    else agmLoop rnd sqrtE two epsilon fuel (agmStep rnd sqrtE two v)

/-- The initial AGM variables of const_log2(mp_bitcnt_t req_precision):
a(one), b(one) then b.div_2exp(req_precision / 2 - 2), with a_next and
b_next copies of zero.  The exponent arithmetic is in mp_bitcnt_t; the
claims operate at req_precision >= 4 where natural subtraction agrees. -/
def log2InitVarsP (rnd : Nat → ℚ → ℚ) (req : Nat) : AgmVars :=
  let zero := fromDoublePrec 0 req
  let one := fromDoublePrec 1 req
  { a := copyCtor rnd one,
    b := Mpf.div2exp (copyCtor rnd one) (req / 2 - 2),
    aNext := copyCtor rnd zero,
    bNext := copyCtor rnd zero }

/-- mpf_class const_log2(mp_bitcnt_t req_precision): the fresh,
non-cached computation.  epsilon(one) then epsilon.div_2exp(req);
after convergence
log2 = const_pi(req_precision) / (mpf_class(req_precision, req_precision) * a). -/
def constLog2Prec (rnd sqrtE : Nat → ℚ → ℚ) (req : Nat) (fuel : Nat) : Option Mpf :=
  let zero := fromDoublePrec 0 req
  let one := fromDoublePrec 1 req
  let two := fromDoublePrec 2 req
  let log2v := copyCtor rnd zero
  let epsilon := Mpf.div2exp (copyCtor rnd one) req
  match agmLoop rnd sqrtE two epsilon fuel (log2InitVarsP rnd req) with
  | none => none
  | some v2 =>
    match constPiPrec rnd sqrtE req fuel with
    | none => none
    | some piV =>
      some (opAssign rnd log2v (divOp rnd piV (mulOp rnd (fromUiPrec req req) v2.a)))

/-- The epsilon of the zero-argument const_log2():
mpf_class epsilon = one; epsilon.div_2exp((_default_prec / 2) - 2).
Note the exponent is (p / 2) - 2, not p. -/
def log2ZeroEpsilon (rnd : Nat → ℚ → ℚ) (dp : Nat) : Mpf :=
  Mpf.div2exp (copyCtor rnd (fromDouble dp 1)) (dp / 2 - 2)

/-- The AGM part of the recomputation body of the zero-argument
const_log2(), parameterized by the value the embedded const_pi() call
returns: locals at the current default precision, b initialized to the
same value as epsilon, and the result
log2_cached = const_pi() / (mpf_class(_default_prec) * a). -/
def constLog2ZeroBody (rnd sqrtE : Nat → ℚ → ℚ) (dp : Nat) (fuel : Nat)
    (piV : Mpf) : Option Mpf :=
  let one := fromDouble dp 1
  let two := fromDouble dp 2
  let epsilon := log2ZeroEpsilon rnd dp
  let v : AgmVars :=
    { a := copyCtor rnd one,
      b := copyCtor rnd epsilon,
      aNext := mpfInit dp,
      bNext := mpfInit dp }
  match agmLoop rnd sqrtE two epsilon fuel v with
  | none => none
  | some v2 => some (divOp rnd piV (mulOp rnd (fromUi dp dp) v2.a))

/-- The recompute branch of the zero-argument const_log2(): clear the
slot at its own precision, tag it with the current default precision,
run the AGM body (whose const_pi() call reads and may update the pi
cache), and assign the result into the slot. -/
def constLog2ZeroRecompute (rnd sqrtE : Nat → ℚ → ℚ) (dp : Nat) (fuel : Nat)
    (piSt : ConstCache) (st : ConstCache) : Option (Mpf × ConstCache × ConstCache) :=
  let cleared := opAssign rnd st.cached (mpfInit dp)
  match constPiZero rnd sqrtE dp fuel piSt with
  | none => none
  | some (piV, piSt2) =>
    match constLog2ZeroBody rnd sqrtE dp fuel piV with
    | none => none
    | some v =>
      let slot := opAssign rnd cleared v
      some (copyCtor rnd slot, piSt2,
        { calculated := true, calcPrec := dp, cached := slot })

/-- mpf_class const_log2() (zero-argument, memoized): same memoization
shape as const_pi(), with its own static slot. -/
def constLog2Zero (rnd sqrtE : Nat → ℚ → ℚ) (dp : Nat) (fuel : Nat)
    (piSt : ConstCache) (st : ConstCache) : Option (Mpf × ConstCache × ConstCache) :=
  if !st.calculated || (st.calculated && st.calcPrec ≠ dp) then
    constLog2ZeroRecompute rnd sqrtE dp fuel piSt st
  else
    some (copyCtor rnd st.cached, piSt, st)

/-- Modelled from the spec: mpf_class::reset_pi_cache() is declared in
the sources (static void reset_pi_cache();) but its definition is not
under src; per the spec the reset operation explicitly drops the
memoized value, forcing the next zero-argument call to recompute even if
the precision has not changed. -/
def resetPiCache (st : ConstCache) : ConstCache := { st with calculated := false }

/-- Modelled from the spec: mpf_class::reset_log2_cache(), as for
resetPiCache. -/
def resetLog2Cache (st : ConstCache) : ConstCache := { st with calculated := false }

/-- mpf_class log(const mpf_class &x), parameterized by the values the
two embedded constant calls return (piV for const_pi(req_precision) and
log2V for const_log2(req_precision)) and by the engine's binary-exponent
extraction getExp2 (mpf_get_d_2exp).  req_precision = x.get_prec(); every
local is materialized at req_precision; dp is the ambient default
precision, read only by the mixed-type product m * _log2. -/
def logBody (rnd sqrtE : Nat → ℚ → ℚ) (getExp2 : ℚ → ℤ) (dp : Nat)
    (x piV log2V : Mpf) (fuel : Nat) : Option Mpf :=
  let req := x.prec
  let zero := fromDoublePrec 0 req
  let one := fromDoublePrec 1 req
  let two := fromDoublePrec 2 req
  let four := fromDoublePrec 4 req
  let logv := copyCtor rnd zero
  let epsilon := copyCtor rnd one
  let a := copyCtor rnd one
  let b := copyCtor rnd one
  let aNext := copyCtor rnd zero
  let bNext := copyCtor rnd zero
  let s := copyCtor rnd one
  let piL := copyCtor rnd piV
  let log2L := copyCtor rnd log2V
  let b := Mpf.mul2exp (opAssign rnd b one) (req / 2)
  let s := opAssign rnd s (divOp rnd b x)
  let m := getExp2 s.val
  let b := Mpf.mul2expZ (opAssign rnd b one) m
  let s := opAssign rnd s (mulOp rnd x b)
  let b := opAssign rnd b (divOp rnd four s)
  let epsilon := Mpf.div2exp epsilon req
  match agmLoop rnd sqrtE two epsilon fuel ⟨a, b, aNext, bNext⟩ with
  | none => none
  | some v2 =>
    some (opAssign rnd logv
      (subOp rnd (divOp rnd piL (mulOp rnd two v2.b)) (mulSi rnd dp log2L m)))

/-- mpf_class log(const mpf_class &x): the constants are obtained through
the precision-argument forms const_pi(req_precision) and
const_log2(req_precision), not through the cached zero-argument forms. -/
def logMpf (rnd sqrtE : Nat → ℚ → ℚ) (getExp2 : ℚ → ℤ) (dp : Nat)
    (x : Mpf) (fuel : Nat) : Option Mpf :=
  match constPiPrec rnd sqrtE x.prec fuel, constLog2Prec rnd sqrtE x.prec fuel with
  | some piV, some log2V => logBody rnd sqrtE getExp2 dp x piV log2V fuel
  | _, _ => none

/-- The final statement of the log variant of src/gmpxx_mkII.h,
_log = const_pi() / (two * b) - m * const_log2(), given the values piV
and log2V those two zero-argument calls return: _log is a copy of the
zero built at the hard-coded default precision 1000, the product
m * const_log2() materializes its integer temporary at that default
precision, and the assignment keeps _log's precision. -/
def logMkIIFinal (rnd : Nat → ℚ → ℚ) (m : ℤ) (bFinal piV log2V : Mpf) : Mpf :=
  opAssign rnd (copyCtor rnd (fromDouble 1000 0))
    (subOp rnd (divOp rnd piV (mulOp rnd (fromDouble 1000 2) bFinal))
      (mulSi rnd 1000 log2V m))

/-- mpf_class log(const mpf_class &x) of src/gmpxx_mkII.h (the second
variant of log in the repository): it first calls
mpf_set_default_prec(1000) and hard-codes precision = 1000, so every
local is built at precision 1000 regardless of x's precision; after the
AGM loop the result is _log = const_pi() / (two * b) - m * const_log2(),
read from the CACHED zero-argument constant forms at the (now 1000)
default precision, whose cache slots are threaded through here (the
const_pi() call is evaluated first; C++ leaves the order within the
expression unspecified).  The locals tmp, d and counter are dead, and
the debug print to std::cout has no effect on the value. -/
def logMkII (rnd sqrtE : Nat → ℚ → ℚ) (getExp2 : ℚ → ℤ) (fuel : Nat)
    (x : Mpf) (piSt log2St : ConstCache) : Option (Mpf × ConstCache × ConstCache) :=
  let zero := fromDouble 1000 0
  let one := fromDouble 1000 1
  let two := fromDouble 1000 2
  let four := fromDouble 1000 4
  let epsilon := copyCtor rnd one
  let a := copyCtor rnd one
  let b := copyCtor rnd one
  let aNext := copyCtor rnd zero
  let bNext := copyCtor rnd zero
  let s := copyCtor rnd one
  let b := Mpf.mul2exp b (1000 / 2)
  let s := opAssign rnd s (divOp rnd b x)
  let m := getExp2 s.val
  let b := Mpf.mul2expZ (opAssignD b 1) m
  let s := opAssign rnd s (mulOp rnd x b)
  let b := opAssign rnd b (divOp rnd four s)
  let epsilon := Mpf.div2exp epsilon 1000
  match agmLoop rnd sqrtE two epsilon fuel ⟨a, b, aNext, bNext⟩ with
  | none => none
  | some v2 =>
    match constPiZero rnd sqrtE 1000 fuel piSt with
    | none => none
    | some (piV, piSt2) =>
      match constLog2Zero rnd sqrtE 1000 fuel piSt2 log2St with
      | none => none
      | some (log2V, piSt3, log2St2) =>
        some (logMkIIFinal rnd m v2.b piV log2V, piSt3, log2St2)

/-- The outcome of exp's range-reduction phase: the halving count k, the
log2 multiple n, the series length l and the reduced argument r. -/
structure ExpRed where
  k : ℤ
  n : ℤ
  l : Nat
  r : Mpf
  deriving Repr, DecidableEq

/-- The range reduction of exp(x) on the already-made-nonnegative
argument xA: k is the binary exponent from mpf_get_d_2exp; when k > 0
BOTH _x and _log2 are divided by 2^k (_x.div_2exp(k); _log2.div_2exp(k);),
then n = floor(_x / _log2).get_si() and r = _x - n * _log2 with the
already-scaled _log2, and l = req_precision / k; when k <= 0 the source
resets k = 0, l = req_precision, r = _x, n = 0. -/
def expReduce (rnd : Nat → ℚ → ℚ) (getExp2 : ℚ → ℤ) (dp req : Nat)
    (xA log2L r0 : Mpf) : ExpRed :=
  let k := getExp2 xA.val
  if 0 < k then
    let x2 := Mpf.div2exp xA k.toNat
    let l2 := Mpf.div2exp log2L k.toNat
    let n := (floorFn (divOp rnd x2 l2)).getSi
    let r := opAssign rnd r0 (subOp rnd x2 (mulSi rnd dp l2 n))
    { k := k, n := n, l := req / k.toNat, r := r }
  else
    { k := 0, n := 0, l := req, r := opAssign rnd r0 xA }

/-- The series loop of exp:
for (int i = l; i > 0; i--) _exp = one + ((r * _exp) / mpf_class(i, req)). -/
def expSeries (rnd : Nat → ℚ → ℚ) (req : Nat) (one r : Mpf) : Nat → Mpf → Mpf
  | 0, e => e
  | i + 1, e =>
    expSeries rnd req one r i
      (opAssign rnd e (addOp rnd one (divOp rnd (mulOp rnd r e) (fromSiPrec (i + 1 : Nat) req))))

/-- The squaring loop of exp: for (int i = 0; i < k; i++) _exp = _exp * _exp. -/
def expSquare (rnd : Nat → ℚ → ℚ) : Nat → Mpf → Mpf
  | 0, e => e
  | i + 1, e => expSquare rnd i (opAssign rnd e (mulOp rnd e e))

/-- mpf_class exp(const mpf_class &x), parameterized by the value the
embedded const_log2(req_precision) call returns.  For negative x the
source flips _x = -_x up front and returns one / _exp at the end. -/
def expBody (rnd : Nat → ℚ → ℚ) (getExp2 : ℚ → ℤ) (dp : Nat)
    (x log2V : Mpf) : Mpf :=
  let req := x.prec
  let zero := fromDoublePrec 0 req
  let one := fromDoublePrec 1 req
  let e0 := copyCtor rnd one
  let x0 := copyCtor rnd x
  let r0 := copyCtor rnd zero
  let log2L := copyCtor rnd log2V
  let xA := if ltOp x zero then opAssign rnd x0 (negOp x0) else x0
  let red := expReduce rnd getExp2 dp req xA log2L r0
  let e1 := expSeries rnd req one red.r red.l e0
  let e2 := expSquare rnd red.k.toNat e1
  let e3 :=
    if 0 < red.n then Mpf.mul2exp e2 red.n.toNat
    else if red.n < 0 then Mpf.div2exp e2 (-red.n).toNat
    else e2
  if ltOp x zero then opAssign rnd e3 (divOp rnd one e3) else e3

/-- mpf_class exp(const mpf_class &x): the source also computes
mpf_class _pi(const_pi(req_precision)) and never uses it; the call is
kept here, its value discarded. -/
def expMpf (rnd sqrtE : Nat → ℚ → ℚ) (getExp2 : ℚ → ℤ) (dp : Nat)
    (x : Mpf) (fuel : Nat) : Option Mpf :=
  match constPiPrec rnd sqrtE x.prec fuel, constLog2Prec rnd sqrtE x.prec fuel with
  | some _piV, some log2V => some (expBody rnd getExp2 dp x log2V)
  | _, _ => none

/-- mpf_class(const char *str) and mpf_class(const std::string &str):
mpf_init_set_str at the current default precision in the currently
selected default base; a nonzero return (parse failure) raises
std::invalid_argument and no object is produced.  The engine's numeral
grammar is abstracted as the parse parameter. -/
def mpfFromStr (rnd : Nat → ℚ → ℚ) (dp : Nat) (parse : String → ℤ → Option ℚ)
    (base : ℤ) (str : String) : Except Unit Mpf :=
  match parse str base with
  | some v => Except.ok ⟨dp, rnd dp v⟩
  | none => Except.error ()

/-- mpf_class(const char *str, mp_bitcnt_t prec, int base) and the
std::string analogue: mpf_init2 at the requested precision, then
mpf_set_str; a nonzero return raises std::invalid_argument. -/
def mpfFromStrPrec (rnd : Nat → ℚ → ℚ) (parse : String → ℤ → Option ℚ)
    (str : String) (p : Nat) (base : ℤ) : Except Unit Mpf :=
  match parse str base with
  | some v => Except.ok ⟨p, rnd p v⟩
  | none => Except.error ()

/-! Specification-side definitions.  These follow the spec's words over
plain rationals, with the engine's square root kept as a function
parameter; they exist to be compared with the source translations
above. -/

/-- Spec-side state of the Gauss-Legendre iteration, plus the current
and previous pi estimate. -/
structure PiSpecState where
  a : ℚ
  b : ℚ
  t : ℚ
  p : ℚ
  est : ℚ
  prev : ℚ
  deriving Repr, DecidableEq

/-- Spec iteration for pi: each iteration sets a's successor to
(a + b) / 2, b's to sqrt(a * b), t's to t - p * (a - (a + b) / 2)^2 and
p's to 2 * p, and the estimate is (a + b)^2 / (4 * t) on the updated
state. -/
def piSpecStep (sqrtF : ℚ → ℚ) (s : PiSpecState) : PiSpecState :=
  let aN := (s.a + s.b) / 2
  let bN := sqrtF (s.a * s.b)
  let tN := s.t - s.p * (s.a - aN) ^ 2
  let pN := 2 * s.p
  { a := aN, b := bN, t := tN, p := pN,
    est := (aN + bN) ^ 2 / (4 * tN), prev := s.est }

/-- Spec loop for pi: stop when the absolute difference of consecutive
estimates falls below eps and return the final estimate (the estimate
before the first iteration is taken to be 0, matching the
default-initialized tmp_pi of the source). -/
def piSpecLoop (sqrtF : ℚ → ℚ) (eps : ℚ) : Nat → PiSpecState → Option ℚ
  | 0, _ => none
  | fuel + 1, s =>
    let s2 := piSpecStep sqrtF s
    if |s2.est - s2.prev| < eps then some s2.est
    else piSpecLoop sqrtF eps fuel s2

/-- Spec-side pi at working precision p: start from a = 1, b = 1/sqrt 2,
t = 1/4, p = 1 with eps = 2^(-p). -/
def constPiSpec (sqrtF : ℚ → ℚ) (p : Nat) (fuel : Nat) : Option ℚ :=
  piSpecLoop sqrtF (1 / 2 ^ p) fuel
    { a := 1, b := 1 / sqrtF 2, t := 1 / 4, p := 1, est := 0, prev := 0 }

/-- Spec-side plain AGM loop (log2 / log): iterate a to (a + b) / 2 and
b to sqrt(a * b) until the pre-update pair satisfies |a - b| < eps, and
return the final (updated) pair. -/
def agmSpecLoop (sqrtF : ℚ → ℚ) (eps : ℚ) : Nat → ℚ → ℚ → Option (ℚ × ℚ)
  | 0, _, _ => none
  | fuel + 1, a, b =>
    let aN := (a + b) / 2
    let bN := sqrtF (a * b)
    if |a - b| < eps then some (aN, bN)
    else agmSpecLoop sqrtF eps fuel aN bN

/-- Spec-side log 2 at working precision p, as the claim states it for
the precision-argument entry point: a = 1, b = 2^(-(p/2 - 2)),
eps = 2^(-p), result pi / (p * a_final) with pi computed at the same
precision. -/
def constLog2SpecP (sqrtF : ℚ → ℚ) (p : Nat) (fuel : Nat) : Option ℚ :=
  match agmSpecLoop sqrtF (1 / 2 ^ p) fuel 1 (1 / 2 ^ (p / 2 - 2)) with
  | none => none
  | some af =>
    match constPiSpec sqrtF p fuel with
    | none => none
    | some piQ => some (piQ / (p * af.1))

/-- Spec-side log 2 for the zero-argument entry point as amended: the
same iteration and result formula, but eps = 2^(-(p/2 - 2)), equal to
the initial b; pi is supplied by the (cached) zero-argument pi of the
same working precision, taken here as a parameter. -/
def constLog2SpecZ (sqrtF : ℚ → ℚ) (dp : Nat) (fuel : Nat) (piQ : ℚ) : Option ℚ :=
  (agmSpecLoop sqrtF (1 / 2 ^ (dp / 2 - 2)) fuel 1 (1 / 2 ^ (dp / 2 - 2))).map
    (fun af => piQ / (dp * af.1))

/-- Spec-side truncated exponential series in backward form:
E = 1 + r * E / i for i from the length down to 1, seeded with 1. -/
def expSeriesQ (r : ℚ) : Nat → ℚ → ℚ
  | 0, e => e
  | i + 1, e => expSeriesQ r i (1 + r * e / (i + 1))

/-- Spec-side repeated squaring. -/
def expSquareQ : Nat → ℚ → ℚ
  | 0, e => e
  | i + 1, e => expSquareQ i (e * e)

/-- Spec-side exp as amended to the source's reduction: with k the
binary exponent of |x| (g |x|), when k > 0 both |x| and log2 are scaled
by 2^(-k), n = floor((|x| / 2^k) / (log2 / 2^k)), r is the remainder
against the scaled log2, and l = p / k; when k <= 0 no reduction happens
(n = 0, r = |x|, l = p).  The series runs with divisors l down to 1, the
result is squared k times and shifted by 2^n, and a negative x yields
the reciprocal of exp(|x|). -/
def expSpecAmended (g : ℚ → ℤ) (p : Nat) (x L : ℚ) : ℚ :=
  let xa := if x < 0 then -x else x
  let k := g xa
  let kk : Nat := if 0 < k then k.toNat else 0
  let n : ℤ := if 0 < k then ⌊(xa / 2 ^ k.toNat) / (L / 2 ^ k.toNat)⌋ else 0
  let l : Nat := if 0 < k then p / k.toNat else p
  let r : ℚ := if 0 < k then xa / 2 ^ k.toNat - n * (L / 2 ^ k.toNat) else xa
  let e1 := expSeriesQ r l 1
  let e2 := expSquareQ kk e1
  let e3 := if 0 < n then e2 * 2 ^ n.toNat else if n < 0 then e2 / 2 ^ (-n).toNat else e2
  if x < 0 then 1 / e3 else e3

/-- The multiple of log 2 exactly as the claim words it for exp's range
reduction: n = floor((x / 2^k) / log2), with log2 NOT scaled by 2^(-k). -/
def expSpecClaimN (x L : ℚ) (k : ℤ) : ℤ := ⌊(x / 2 ^ k.toNat) / L⌋

/-- The backward recurrence exactly as the claim words it:
E i = 1 + r * E (i+1) / (i+1) for i from l down to 1, seeded with 1; at
fuel i+1 the current index is i+1, so the divisor is i+2. -/
def expSpecClaimSeriesQ (r : ℚ) : Nat → ℚ → ℚ
  | 0, e => e
  | i + 1, e => expSpecClaimSeriesQ r i (1 + r * e / (i + 2))

/-! Concrete engine instances used by witnesses and counterexamples. -/

/-- The exact (rounding-free) engine instance. -/
def exactRnd : Nat → ℚ → ℚ := fun _ q => q

/-- Lift a precision-independent square root to the engine signature. -/
def liftSqrt (sqrtF : ℚ → ℚ) : Nat → ℚ → ℚ := fun _ q => sqrtF q

/-- A toy engine square root that returns 1 everywhere; it makes the
AGM loops converge within a few iterations on concrete inputs. -/
def sqrtOne : ℚ → ℚ := fun _ => 1

/-! Precision predicates for the assertion claims. -/

/-- Every local of the const_pi(mp_bitcnt_t) loop carries precision p
(the property asserted by the source's assert battery). -/
def PiVarsAllPrec (p : Nat) (v : PiVars) : Prop :=
  v.a.prec = p ∧ v.b.prec = p ∧ v.t.prec = p ∧ v.p.prec = p ∧
  v.aNext.prec = p ∧ v.bNext.prec = p ∧ v.tNext.prec = p ∧
  v.tmpPi.prec = p ∧ v.piPrev.prec = p ∧ v.tmp.prec = p

instance (p : Nat) (v : PiVars) : Decidable (PiVarsAllPrec p v) := by
  unfold PiVarsAllPrec; infer_instance

/-- Every local of the log2/log AGM loop carries precision p. -/
def AgmVarsAllPrec (p : Nat) (v : AgmVars) : Prop :=
  v.a.prec = p ∧ v.b.prec = p ∧ v.aNext.prec = p ∧ v.bNext.prec = p

instance (p : Nat) (v : AgmVars) : Decidable (AgmVarsAllPrec p v) := by
  unfold AgmVarsAllPrec; infer_instance

/-- Value correspondence between the source loop variables of const_pi
and a spec-side state. -/
def PiCorr (v : PiVars) (s : PiSpecState) : Prop :=
  v.a.val = s.a ∧ v.b.val = s.b ∧ v.t.val = s.t ∧ v.p.val = s.p ∧
  v.tmpPi.val = s.est ∧ v.piPrev.val = s.prev

/-- Value correspondence between the source AGM loop variables and a
spec-side pair. -/
def AgmCorr (v : AgmVars) (ab : ℚ × ℚ) : Prop :=
  v.a.val = ab.1 ∧ v.b.val = ab.2

/-! Theorems. -/

/-- largerprec returns the maximum of the two precisions. -/
theorem largerprec_eq_max (a b : Mpf) : largerprec a b = max a.prec b.prec := by
  unfold largerprec
  split <;> omega

/-- C1: For all mpf_class values a at precision p1 and b at precision
p2, in standard (precision-change) mode each binary arithmetic operator
+, -, *, / on a and b returns a freshly constructed result whose
precision equals max(p1, p2). -/
theorem binaryOp_prec_max (rnd : Nat → ℚ → ℚ) (a b : Mpf) :
    (addOp rnd a b).prec = max a.prec b.prec ∧
    (subOp rnd a b).prec = max a.prec b.prec ∧
    (mulOp rnd a b).prec = max a.prec b.prec ∧
    (divOp rnd a b).prec = max a.prec b.prec := by
  refine ⟨?_, ?_, ?_, ?_⟩ <;>
    simp [addOp, subOp, mulOp, divOp, mpfAdd, mpfSub, mpfMul, mpfDiv,
      mpfInit2, largerprec_eq_max]

/-- C2: after copy assignment x = y in standard mode, x's precision
still equals its pre-assignment precision (the source's precision is
never adopted) and x's value is y's value rounded into that precision. -/
theorem assign_keeps_own_prec (rnd : Nat → ℚ → ℚ) (x y : Mpf) :
    (opAssign rnd x y).prec = x.prec ∧
    (opAssign rnd x y).val = rnd x.prec y.val :=
  ⟨rfl, rfl⟩

/-- C8: a string constructor fails by throwing exactly when the engine
rejects the numeral in the selected base, producing no value at all, and
succeeds without throwing on every accepted numeral, so a parse failure
is distinguishable from a successful zero result.  Both the
default-precision and the explicit-precision constructors behave this
way. -/
theorem strCtor_throws_iff_parse_fails (rnd : Nat → ℚ → ℚ) (dp p : Nat)
    (parse : String → ℤ → Option ℚ) (base : ℤ) (str : String) :
    (parse str base = none →
      mpfFromStr rnd dp parse base str = Except.error () ∧
      (∀ m : Mpf, mpfFromStr rnd dp parse base str ≠ Except.ok m) ∧
      mpfFromStrPrec rnd parse str p base = Except.error () ∧
      (∀ m : Mpf, mpfFromStrPrec rnd parse str p base ≠ Except.ok m)) ∧
    (∀ v, parse str base = some v →
      mpfFromStr rnd dp parse base str = Except.ok ⟨dp, rnd dp v⟩ ∧
      mpfFromStrPrec rnd parse str p base = Except.ok ⟨p, rnd p v⟩) := by
  constructor
  · intro h
    refine ⟨?_, ?_, ?_, ?_⟩ <;> simp [mpfFromStr, mpfFromStrPrec, h]
  · intro v h
    exact ⟨by simp [mpfFromStr, h], by simp [mpfFromStrPrec, h]⟩

/-- Witness for C8 at a concrete toy parser and a rejected string. -/
theorem strCtor_throws_iff_parse_fails_witness :
    mpfFromStr exactRnd 512 (fun s _ => if s = "1" then some (1 : ℚ) else none)
      10 "junk" = Except.error () := by
  have h := (strCtor_throws_iff_parse_fails exactRnd 512 512
    (fun s _ => if s = "1" then some (1 : ℚ) else none) 10 "junk").1 (by decide)
  exact h.1

/-- C9: after a cache reset, the next zero-argument constant call takes
the recompute branch, for every cache state, in particular also when the
tagged precision still equals the current default precision. -/
theorem resetCache_forces_recompute (rnd sqrtE : Nat → ℚ → ℚ)
    (dp fuel : Nat) (piSt st : ConstCache) :
    constPiZero rnd sqrtE dp fuel (resetPiCache st) =
      constPiZeroRecompute rnd sqrtE dp fuel (resetPiCache st) ∧
    constLog2Zero rnd sqrtE dp fuel piSt (resetLog2Cache st) =
      constLog2ZeroRecompute rnd sqrtE dp fuel piSt (resetLog2Cache st) := by
  constructor <;>
    simp [constPiZero, constLog2Zero, resetPiCache, resetLog2Cache]

/-- C3: the zero-argument const_pi() returns the cached slot exactly
when a value was already computed and the stored precision tag equals
the current default precision; in every other case it runs the fresh
computation at the current default precision and overwrites the single
slot (value and tag), returning a copy of the new slot. -/
theorem constPiZero_memoization (rnd sqrtE : Nat → ℚ → ℚ)
    (dp fuel : Nat) (st : ConstCache) :
    (st.calculated = true ∧ st.calcPrec = dp →
      constPiZero rnd sqrtE dp fuel st = some (copyCtor rnd st.cached, st)) ∧
    (st.calculated = false ∨ st.calcPrec ≠ dp →
      constPiZero rnd sqrtE dp fuel st = constPiZeroRecompute rnd sqrtE dp fuel st ∧
      ∀ r st2, constPiZero rnd sqrtE dp fuel st = some (r, st2) →
        ∃ fresh, constPiZeroCompute rnd sqrtE dp fuel = some fresh ∧
          st2 = ⟨true, dp, opAssign rnd (opAssign rnd st.cached (mpfInit dp)) fresh⟩ ∧
          r = copyCtor rnd st2.cached) := by
  constructor
  · rintro ⟨h1, h2⟩
    simp [constPiZero, h1, h2]
  · intro h
    have hcond : (!st.calculated || (st.calculated && decide (st.calcPrec ≠ dp))) = true := by
      rcases h with h | h
      · simp [h]
      · cases hc : st.calculated <;> simp [hc, h]
    constructor
    · simp only [constPiZero, hcond, if_true]
    · intro r st2 hr
      simp only [constPiZero, hcond, if_true] at hr
      unfold constPiZeroRecompute at hr
      cases hcomp : constPiZeroCompute rnd sqrtE dp fuel with
      | none => rw [hcomp] at hr; exact absurd hr (by simp)
      | some fresh =>
        rw [hcomp] at hr
        simp only [Option.some.injEq, Prod.mk.injEq] at hr
        exact ⟨fresh, rfl, hr.2.symm, by rw [← hr.2]; exact hr.1.symm⟩

/-- Witness for C3: a cache hit at default precision 4 on an
already-computed slot returns the slot value and leaves the state
unchanged. -/
theorem constPiZero_memoization_witness :
    constPiZero exactRnd (liftSqrt sqrtOne) 4 3
      ⟨true, 4, ⟨4, 7⟩⟩ = some (⟨4, (7 : ℚ)⟩, ⟨true, 4, ⟨4, 7⟩⟩) :=
  (constPiZero_memoization exactRnd (liftSqrt sqrtOne) 4 3
    ⟨true, 4, ⟨4, 7⟩⟩).1 ⟨rfl, rfl⟩

/-- The Gauss-Legendre step preserves the all-at-precision-p invariant:
every update is a copy assignment into an existing local, which
reinitializes at the assignee's own precision. -/
theorem piStep_allPrec (rnd sqrtE : Nat → ℚ → ℚ) (two four : Mpf) (p : Nat)
    (v : PiVars) (h : PiVarsAllPrec p v) :
    PiVarsAllPrec p (piStep rnd sqrtE two four v) := by
  obtain ⟨h1, h2, h3, h4, h5, h6, h7, h8, h9, h10⟩ := h
  exact ⟨h1, h2, h3, h4, h5, h6, h7, h8, h9, h10⟩

/-- The const_pi(mp_bitcnt_t) loop preserves the precision invariant
through every iteration up to its result. -/
theorem piLoopP_allPrec (rnd sqrtE : Nat → ℚ → ℚ) (two four eps : Mpf) (p : Nat) :
    ∀ fuel (v : PiVars), PiVarsAllPrec p v →
      ∀ v2, piLoopP rnd sqrtE two four eps fuel v = some v2 → PiVarsAllPrec p v2 := by
  intro fuel
  induction fuel with
  | zero => intro v _ v2 h2; exact absurd h2 (by simp [piLoopP])
  | succ n ih =>
    intro v hv v2 h2
    have hstep : PiVarsAllPrec p (piStepP rnd sqrtE two four v) := by
      have h0 : PiVarsAllPrec p (piStep rnd sqrtE two four v) :=
        piStep_allPrec rnd sqrtE two four p v hv
      obtain ⟨g1, g2, g3, g4, g5, g6, g7, g8, g9, g10⟩ := h0
      exact ⟨g1, g2, g3, g4, g5, g6, g7, g8, g9, g10⟩
    rw [piLoopP] at h2
    by_cases hc : ltOp (piStepP rnd sqrtE two four v).tmp eps = true
    · rw [if_pos hc] at h2
      cases h2
      exact hstep
    · rw [if_neg hc] at h2
      exact ih _ hstep v2 h2

/-- The initial locals of const_pi(mp_bitcnt_t req_precision) all carry
precision req_precision. -/
theorem piInitVarsP_allPrec (rnd sqrtE : Nat → ℚ → ℚ) (req : Nat) :
    PiVarsAllPrec req (piInitVarsP rnd sqrtE req) := by
  unfold piInitVarsP PiVarsAllPrec
  simp [copyCtor, mpfSet, mpfInit2, divOp, mpfDiv, sqrtFn, mpfSqrt,
    largerprec_eq_max, fromDoublePrec]

/-- The AGM step preserves the all-at-precision-p invariant. -/
theorem agmStep_allPrec (rnd sqrtE : Nat → ℚ → ℚ) (two : Mpf) (p : Nat)
    (v : AgmVars) (h : AgmVarsAllPrec p v) :
    AgmVarsAllPrec p (agmStep rnd sqrtE two v) := by
  obtain ⟨h1, h2, h3, h4⟩ := h
  exact ⟨h1, h2, h3, h4⟩

/-- The log2/log AGM loop preserves the precision invariant through
every iteration up to its result. -/
theorem agmLoop_allPrec (rnd sqrtE : Nat → ℚ → ℚ) (two eps : Mpf) (p : Nat) :
    ∀ fuel (v : AgmVars), AgmVarsAllPrec p v →
      ∀ v2, agmLoop rnd sqrtE two eps fuel v = some v2 → AgmVarsAllPrec p v2 := by
  intro fuel
  induction fuel with
  | zero => intro v _ v2 h2; exact absurd h2 (by simp [agmLoop])
  | succ n ih =>
    intro v hv v2 h2
    have hstep : AgmVarsAllPrec p (agmStep rnd sqrtE two v) :=
      agmStep_allPrec rnd sqrtE two p v hv
    rw [agmLoop] at h2
    by_cases hc : ltOp (absFn (subOp rnd v.a v.b)) eps = true
    · rw [if_pos hc] at h2
      cases h2
      exact hstep
    · rw [if_neg hc] at h2
      exact ih _ hstep v2 h2

/-- The initial locals of const_log2(mp_bitcnt_t req_precision) all
carry precision req_precision. -/
theorem log2InitVarsP_allPrec (rnd : Nat → ℚ → ℚ) (req : Nat) :
    AgmVarsAllPrec req (log2InitVarsP rnd req) :=
  ⟨rfl, rfl, rfl, rfl⟩

/-- C10: const_pi(p) and const_log2(p) return values whose precision is
exactly the requested p, and the precision assertions of their bodies
hold: the initial locals are all materialized at p and every loop
iteration keeps them at p. -/
theorem constPrec_assertions_hold (rnd sqrtE : Nat → ℚ → ℚ) (p fuel : Nat) :
    PiVarsAllPrec p (piInitVarsP rnd sqrtE p) ∧
    (∀ v, PiVarsAllPrec p v →
      PiVarsAllPrec p (piStep rnd sqrtE (fromDoublePrec 2 p) (fromDoublePrec 4 p) v)) ∧
    (∀ r, constPiPrec rnd sqrtE p fuel = some r → r.prec = p) ∧
    AgmVarsAllPrec p (log2InitVarsP rnd p) ∧
    (∀ v, AgmVarsAllPrec p v →
      AgmVarsAllPrec p (agmStep rnd sqrtE (fromDoublePrec 2 p) v)) ∧
    (∀ r, constLog2Prec rnd sqrtE p fuel = some r → r.prec = p) := by
  refine ⟨piInitVarsP_allPrec rnd sqrtE p,
    fun v hv => piStep_allPrec rnd sqrtE _ _ p v hv, ?_,
    log2InitVarsP_allPrec rnd p,
    fun v hv => agmStep_allPrec rnd sqrtE _ p v hv, ?_⟩
  · intro r h
    simp only [constPiPrec] at h
    split at h
    · exact absurd h (by simp)
    · cases h; rfl
  · intro r h
    simp only [constLog2Prec] at h
    split at h
    · exact absurd h (by simp)
    · split at h
      · exact absurd h (by simp)
      · cases h; rfl

/-- Witness for C10 on a concrete engine: at requested precision 4 the
fresh pi computation converges and returns a value of precision 4. -/
theorem constPrec_assertions_hold_witness :
    constPiPrec exactRnd (liftSqrt sqrtOne) 4 3 = some ⟨4, 4⟩ ∧
    (⟨4, (4 : ℚ)⟩ : Mpf).prec = 4 := by
  have hrun : constPiPrec exactRnd (liftSqrt sqrtOne) 4 3 = some ⟨4, 4⟩ := by
    norm_num [constPiPrec, piInitVarsP, piLoopP, piStepP, piStep, opAssign, copyCtor, mpfSet,
      mpfInit2, addOp, subOp, mulOp, divOp, mpfAdd, mpfSub, mpfMul, mpfDiv, sqrtFn,
      mpfSqrt, largerprec, fromDoublePrec, exactRnd, liftSqrt, sqrtOne, ltOp, absFn,
      Mpf.div2exp]
  exact ⟨hrun,
    (constPrec_assertions_hold exactRnd (liftSqrt sqrtOne) 4 3).2.2.1 ⟨4, 4⟩ hrun⟩

/-- The body of log assigns its final expression into the local _log,
which was materialized at x's precision, so any produced result carries
x's precision. -/
theorem logBody_prec (rnd sqrtE : Nat → ℚ → ℚ) (getExp2 : ℚ → ℤ) (dp : Nat)
    (x piV log2V : Mpf) (fuel : Nat) (r : Mpf)
    (h : logBody rnd sqrtE getExp2 dp x piV log2V fuel = some r) :
    r.prec = x.prec := by
  simp only [logBody] at h
  split at h
  · exact absurd h (by simp)
  · cases h; rfl

/-- Counterexample to C4 as stated: the log of src/gmpxx_mkII.h, equally
cited by the claim, hard-codes the working precision 1000, so for an
input of precision 4 it returns a value of precision 1000, not 4; and
it reads its constants from the zero-argument cached forms: with both
cache slots valid at precision 1000 (values 3 and 5 here), the result
3/2 = 3 / (2 * b_final) - 0 * 5 is built from those cached slot values,
with the caches left untouched. -/
theorem log_gmpxx_mkII_counterexample :
    logMkII exactRnd (liftSqrt sqrtOne) (fun _ => 0) 2 ⟨4, 4⟩
      ⟨true, 1000, ⟨9, 3⟩⟩ ⟨true, 1000, ⟨7, 5⟩⟩
      = some (⟨1000, 3 / 2⟩, ⟨true, 1000, ⟨9, 3⟩⟩, ⟨true, 1000, ⟨7, 5⟩⟩) ∧
    (⟨1000, (3 : ℚ) / 2⟩ : Mpf).prec ≠ (⟨4, (4 : ℚ)⟩ : Mpf).prec := by
  constructor
  · norm_num [logMkII, logMkIIFinal, agmLoop, agmStep, constPiZero, constLog2Zero,
      copyCtor, opAssign, opAssignD, mpfSet, mpfInit2, mpfInit, addOp, subOp, mulOp,
      divOp, mpfAdd, mpfSub, mpfMul, mpfDiv, sqrtFn, mpfSqrt, largerprec, fromDouble,
      fromSi, fromUi, mulSi, exactRnd, liftSqrt, sqrtOne, ltOp, absFn, Mpf.div2exp,
      Mpf.mul2exp, Mpf.mul2expZ, abs_lt]
  · norm_num

/-- C4 as amended: the repository's two cited log implementations
differ.  The log of src/unnamed/part_001 returns a result whose
precision equals x's precision p and obtains its constants through the
precision-argument forms const_pi(p) and const_log2(p).  The log of
src/gmpxx_mkII.h instead sets the process default precision to the
hard-coded 1000, returns a result of precision 1000 regardless of p,
and obtains its constants through the cached zero-argument forms
const_pi() and const_log2() read at that default precision. -/
theorem log_variants_amended (rnd sqrtE : Nat → ℚ → ℚ) (getExp2 : ℚ → ℤ)
    (dp : Nat) (x : Mpf) (fuel : Nat) (piSt log2St : ConstCache) :
    (∀ r, logMpf rnd sqrtE getExp2 dp x fuel = some r → r.prec = x.prec) ∧
    (∀ piV log2V, constPiPrec rnd sqrtE x.prec fuel = some piV →
      constLog2Prec rnd sqrtE x.prec fuel = some log2V →
      logMpf rnd sqrtE getExp2 dp x fuel =
        logBody rnd sqrtE getExp2 dp x piV log2V fuel) ∧
    (∀ r piSt2 log2St2, logMkII rnd sqrtE getExp2 fuel x piSt log2St
        = some (r, piSt2, log2St2) → r.prec = 1000) ∧
    (∀ r piSt2 log2St2, logMkII rnd sqrtE getExp2 fuel x piSt log2St
        = some (r, piSt2, log2St2) →
      ∃ piV piStMid log2V bF m,
        constPiZero rnd sqrtE 1000 fuel piSt = some (piV, piStMid) ∧
        constLog2Zero rnd sqrtE 1000 fuel piStMid log2St
          = some (log2V, piSt2, log2St2) ∧
        r = logMkIIFinal rnd m bF piV log2V) := by
  refine ⟨?_, ?_, ?_, ?_⟩
  · intro r h
    simp only [logMpf] at h
    split at h
    · exact logBody_prec rnd sqrtE getExp2 dp x _ _ fuel r h
    · exact absurd h (by simp)
  · intro piV log2V hpi hlog2
    simp only [logMpf, hpi, hlog2]
  · intro r piSt2 log2St2 h
    simp only [logMkII] at h
    split at h
    · exact absurd h (by simp)
    · split at h
      · exact absurd h (by simp)
      · split at h
        · exact absurd h (by simp)
        · simp only [Option.some.injEq, Prod.mk.injEq] at h
          rw [← h.1]
          rfl
  · intro r piSt2 log2St2 h
    simp only [logMkII] at h
    split at h
    · exact absurd h (by simp)
    · split at h
      · exact absurd h (by simp)
      · split at h
        · exact absurd h (by simp)
        · rename_i xA v2 heqA xB piV piStMid heqPi xC log2V piSt3 log2St4 heqLog2
          simp only [Option.some.injEq, Prod.mk.injEq] at h
          obtain ⟨hr, hst1, hst2⟩ := h
          subst hst1
          subst hst2
          exact ⟨piV, piStMid, log2V, v2.b, _, heqPi, heqLog2, hr.symm⟩

/-- Witness for the amended C4 on concrete engines: the part_001 log of
an input of precision 4 converges and produces a value of precision 4,
while the gmpxx_mkII.h log of the same-precision input produces a value
of precision 1000. -/
theorem log_variants_amended_witness :
    (logMpf exactRnd (liftSqrt sqrtOne) (fun _ => 0) 5 ⟨4, 3⟩ 8 = some ⟨4, 2⟩ ∧
      (⟨4, (2 : ℚ)⟩ : Mpf).prec = 4) ∧
    (logMkII exactRnd (liftSqrt sqrtOne) (fun _ => 0) 2 ⟨4, 4⟩
        ⟨true, 1000, ⟨9, 3⟩⟩ ⟨true, 1000, ⟨7, 5⟩⟩
        = some (⟨1000, 3 / 2⟩, ⟨true, 1000, ⟨9, 3⟩⟩, ⟨true, 1000, ⟨7, 5⟩⟩) ∧
      (⟨1000, (3 : ℚ) / 2⟩ : Mpf).prec = 1000) := by
  have hrun1 : logMpf exactRnd (liftSqrt sqrtOne) (fun _ => 0) 5 ⟨4, 3⟩ 8 =
      some ⟨4, 2⟩ := by
    norm_num [logMpf, logBody, constPiPrec, constLog2Prec, piInitVarsP, piLoopP,
      piStepP, piStep, log2InitVarsP, agmLoop, agmStep, opAssign, copyCtor, mpfSet,
      mpfInit2, addOp, subOp, mulOp, divOp, mpfAdd, mpfSub, mpfMul, mpfDiv, sqrtFn,
      mpfSqrt, largerprec, fromDoublePrec, fromUiPrec, fromSi, mulSi, exactRnd,
      liftSqrt, sqrtOne, ltOp, absFn, Mpf.div2exp, Mpf.mul2exp, Mpf.mul2expZ, abs_lt]
  have hrun2 : logMkII exactRnd (liftSqrt sqrtOne) (fun _ => 0) 2 ⟨4, 4⟩
      ⟨true, 1000, ⟨9, 3⟩⟩ ⟨true, 1000, ⟨7, 5⟩⟩
      = some (⟨1000, 3 / 2⟩, ⟨true, 1000, ⟨9, 3⟩⟩, ⟨true, 1000, ⟨7, 5⟩⟩) := by
    norm_num [logMkII, logMkIIFinal, agmLoop, agmStep, constPiZero, constLog2Zero,
      copyCtor, opAssign, opAssignD, mpfSet, mpfInit2, mpfInit, addOp, subOp, mulOp,
      divOp, mpfAdd, mpfSub, mpfMul, mpfDiv, sqrtFn, mpfSqrt, largerprec, fromDouble,
      fromSi, fromUi, mulSi, exactRnd, liftSqrt, sqrtOne, ltOp, absFn, Mpf.div2exp,
      Mpf.mul2exp, Mpf.mul2expZ, abs_lt]
  exact ⟨⟨hrun1,
    (log_variants_amended exactRnd (liftSqrt sqrtOne) (fun _ => 0) 5 ⟨4, 3⟩ 8
      ⟨true, 1000, ⟨9, 3⟩⟩ ⟨true, 1000, ⟨7, 5⟩⟩).1 ⟨4, 2⟩ hrun1⟩,
    ⟨hrun2,
    (log_variants_amended exactRnd (liftSqrt sqrtOne) (fun _ => 0) 5 ⟨4, 4⟩ 2
      ⟨true, 1000, ⟨9, 3⟩⟩ ⟨true, 1000, ⟨7, 5⟩⟩).2.2.1 ⟨1000, 3 / 2⟩
      ⟨true, 1000, ⟨9, 3⟩⟩ ⟨true, 1000, ⟨7, 5⟩⟩ hrun2⟩⟩

/-! Exact-instance reduction lemmas: with the rounding-free engine every
operation computes the exact rational value. -/

@[simp] theorem opAssign_exact (x y : Mpf) :
    opAssign exactRnd x y = ⟨x.prec, y.val⟩ := rfl

@[simp] theorem copyCtor_exact (x : Mpf) :
    copyCtor exactRnd x = ⟨x.prec, x.val⟩ := rfl

@[simp] theorem addOp_exact_val (a b : Mpf) :
    (addOp exactRnd a b).val = a.val + b.val := rfl

@[simp] theorem subOp_exact_val (a b : Mpf) :
    (subOp exactRnd a b).val = a.val - b.val := rfl

@[simp] theorem mulOp_exact_val (a b : Mpf) :
    (mulOp exactRnd a b).val = a.val * b.val := rfl

@[simp] theorem divOp_exact_val (a b : Mpf) :
    (divOp exactRnd a b).val = a.val / b.val := rfl

@[simp] theorem sqrtFn_exact_val (sqrtF : ℚ → ℚ) (a : Mpf) :
    (sqrtFn exactRnd (liftSqrt sqrtF) a).val = sqrtF a.val := rfl

@[simp] theorem absFn_val (a : Mpf) : (absFn a).val = |a.val| := rfl

@[simp] theorem ltOp_eq_decide (a b : Mpf) :
    ltOp a b = decide (a.val < b.val) := rfl

/-- In exact arithmetic the source's Gauss-Legendre step computes
exactly the spec's recurrence. -/
theorem piStep_exact_corr (sqrtF : ℚ → ℚ) (two four : Mpf)
    (h2 : two.val = 2) (h4 : four.val = 4) (v : PiVars) (s : PiSpecState)
    (h : PiCorr v s) :
    PiCorr (piStep exactRnd (liftSqrt sqrtF) two four v) (piSpecStep sqrtF s) := by
  obtain ⟨ha, hb, ht, hp, he, hv⟩ := h
  refine ⟨?_, ?_, ?_, ?_, ?_, ?_⟩ <;>
    simp only [piStep, piSpecStep, opAssign_exact, addOp_exact_val, subOp_exact_val,
      mulOp_exact_val, divOp_exact_val, sqrtFn_exact_val, ha, hb, ht, hp, he, hv,
      h2, h4] <;>
    ring

/-- The prec-loop body also matches the spec step, and its tmp local
holds the convergence quantity. -/
theorem piStepP_exact_corr (sqrtF : ℚ → ℚ) (two four : Mpf)
    (h2 : two.val = 2) (h4 : four.val = 4) (v : PiVars) (s : PiSpecState)
    (h : PiCorr v s) :
    PiCorr (piStepP exactRnd (liftSqrt sqrtF) two four v) (piSpecStep sqrtF s) ∧
    (piStepP exactRnd (liftSqrt sqrtF) two four v).tmp.val
      = |(piSpecStep sqrtF s).est - (piSpecStep sqrtF s).prev| := by
  obtain ⟨ga, gb, gt, gp, ge, gv⟩ := piStep_exact_corr sqrtF two four h2 h4 v s h
  exact ⟨⟨ga, gb, gt, gp, ge, gv⟩, by
    simp only [piStepP, opAssign_exact, absFn_val, subOp_exact_val, ge, gv]⟩

/-- In exact arithmetic the const_pi(mp_bitcnt_t) loop agrees with the
spec loop at every fuel. -/
theorem piLoopP_exact_corr (sqrtF : ℚ → ℚ) (two four eps : Mpf)
    (h2 : two.val = 2) (h4 : four.val = 4) :
    ∀ (fuel : Nat) (v : PiVars) (s : PiSpecState), PiCorr v s →
      (piLoopP exactRnd (liftSqrt sqrtF) two four eps fuel v).map (fun w => w.tmpPi.val)
        = piSpecLoop sqrtF eps.val fuel s := by
  intro fuel
  induction fuel with
  | zero => intro v s _; rfl
  | succ n ih =>
    intro v s h
    obtain ⟨hcorr, htmp⟩ := piStepP_exact_corr sqrtF two four h2 h4 v s h
    rw [piLoopP, piSpecLoop]
    have hcv : ltOp (piStepP exactRnd (liftSqrt sqrtF) two four v).tmp eps
        = decide (|(piSpecStep sqrtF s).est - (piSpecStep sqrtF s).prev| < eps.val) := by
      rw [ltOp_eq_decide, htmp]
    rw [hcv]
    by_cases hc : |(piSpecStep sqrtF s).est - (piSpecStep sqrtF s).prev| < eps.val
    · rw [if_pos (decide_eq_true hc), if_pos hc]
      exact congrArg some hcorr.2.2.2.2.1
    · rw [if_neg (by simp [hc]), if_neg hc]
      exact ih _ (piSpecStep sqrtF s) hcorr

/-- In exact arithmetic the zero-argument const_pi loop also agrees with
the spec loop (its convergence test uses the same quantity without the
intermediate tmp local). -/
theorem piLoopZ_exact_corr (sqrtF : ℚ → ℚ) (two four eps : Mpf)
    (h2 : two.val = 2) (h4 : four.val = 4) :
    ∀ (fuel : Nat) (v : PiVars) (s : PiSpecState), PiCorr v s →
      (piLoopZ exactRnd (liftSqrt sqrtF) two four eps fuel v).map (fun w => w.tmpPi.val)
        = piSpecLoop sqrtF eps.val fuel s := by
  intro fuel
  induction fuel with
  | zero => intro v s _; rfl
  | succ n ih =>
    intro v s h
    obtain ⟨ga, gb, gt, gp, ge, gv⟩ := piStep_exact_corr sqrtF two four h2 h4 v s h
    rw [piLoopZ, piSpecLoop]
    have hcv : ltOp (absFn (subOp exactRnd
        (piStep exactRnd (liftSqrt sqrtF) two four v).tmpPi
        (piStep exactRnd (liftSqrt sqrtF) two four v).piPrev)) eps
        = decide (|(piSpecStep sqrtF s).est - (piSpecStep sqrtF s).prev| < eps.val) := by
      simp only [ltOp_eq_decide, absFn_val, subOp_exact_val, ge, gv]
    rw [hcv]
    by_cases hc : |(piSpecStep sqrtF s).est - (piSpecStep sqrtF s).prev| < eps.val
    · rw [if_pos (decide_eq_true hc), if_pos hc]
      exact congrArg some ge
    · rw [if_neg (by simp [hc]), if_neg hc]
      exact ih _ (piSpecStep sqrtF s) ⟨ga, gb, gt, gp, ge, gv⟩

/-- In exact arithmetic const_pi(mp_bitcnt_t) computes exactly the spec
recurrence and result. -/
theorem constPiPrec_exact_spec (sqrtF : ℚ → ℚ) (p fuel : Nat) :
    (constPiPrec exactRnd (liftSqrt sqrtF) p fuel).map Mpf.val
      = constPiSpec sqrtF p fuel := by
  have hloop := piLoopP_exact_corr sqrtF (fromDoublePrec 2 p) (fromDoublePrec 4 p)
    (Mpf.div2exp (opAssign exactRnd (copyCtor exactRnd (fromDoublePrec 0 p))
      (fromDoublePrec 1 p)) p) rfl rfl fuel (piInitVarsP exactRnd (liftSqrt sqrtF) p)
    { a := 1, b := 1 / sqrtF 2, t := 1 / 4, p := 1, est := 0, prev := 0 }
    ⟨rfl, rfl, rfl, rfl, rfl, rfl⟩
  rw [show (Mpf.div2exp (opAssign exactRnd (copyCtor exactRnd (fromDoublePrec 0 p))
      (fromDoublePrec 1 p)) p).val = 1 / 2 ^ p from rfl] at hloop
  simp only [constPiPrec, constPiSpec]
  rw [← hloop]
  cases hpl : piLoopP exactRnd (liftSqrt sqrtF) (fromDoublePrec 2 p) (fromDoublePrec 4 p)
    (Mpf.div2exp (opAssign exactRnd (copyCtor exactRnd (fromDoublePrec 0 p))
      (fromDoublePrec 1 p)) p) fuel (piInitVarsP exactRnd (liftSqrt sqrtF) p) with
  | none => rfl
  | some v2 => rfl

/-- In exact arithmetic the zero-argument recomputation body computes
exactly the spec recurrence and result at the current default
precision. -/
theorem constPiZeroCompute_exact_spec (sqrtF : ℚ → ℚ) (p fuel : Nat) :
    (constPiZeroCompute exactRnd (liftSqrt sqrtF) p fuel).map Mpf.val
      = constPiSpec sqrtF p fuel := by
  have hloop := piLoopZ_exact_corr sqrtF (fromDouble p 2) (fromDouble p 4)
    (Mpf.div2exp (copyCtor exactRnd (fromDouble p 1)) p) rfl rfl fuel
    { a := copyCtor exactRnd (fromDouble p 1),
      b := copyCtor exactRnd (divOp exactRnd (fromDouble p 1)
        (sqrtFn exactRnd (liftSqrt sqrtF) (fromDouble p 2))),
      t := copyCtor exactRnd (fromDouble p (1 / 4)),
      p := copyCtor exactRnd (fromDouble p 1),
      aNext := mpfInit p, bNext := mpfInit p, tNext := mpfInit p,
      tmpPi := mpfInit p, piPrev := mpfInit p, tmp := mpfInit p }
    { a := 1, b := 1 / sqrtF 2, t := 1 / 4, p := 1, est := 0, prev := 0 }
    ⟨rfl, rfl, rfl, rfl, rfl, rfl⟩
  rw [show (Mpf.div2exp (copyCtor exactRnd (fromDouble p 1)) p).val
    = 1 / 2 ^ p from rfl] at hloop
  simp only [constPiZeroCompute, constPiSpec]
  rw [← hloop]
  cases hpl : piLoopZ exactRnd (liftSqrt sqrtF) (fromDouble p 2) (fromDouble p 4)
    (Mpf.div2exp (copyCtor exactRnd (fromDouble p 1)) p) fuel
    { a := copyCtor exactRnd (fromDouble p 1),
      b := copyCtor exactRnd (divOp exactRnd (fromDouble p 1)
        (sqrtFn exactRnd (liftSqrt sqrtF) (fromDouble p 2))),
      t := copyCtor exactRnd (fromDouble p (1 / 4)),
      p := copyCtor exactRnd (fromDouble p 1),
      aNext := mpfInit p, bNext := mpfInit p, tNext := mpfInit p,
      tmpPi := mpfInit p, piPrev := mpfInit p, tmp := mpfInit p } with
  | none => rfl
  | some v2 => rfl

/-- C5: in exact arithmetic, both const_pi entry points perform exactly
the claimed Gauss-Legendre iteration: initial values 1, 1/sqrt 2, 1/4, 1
materialized at the working precision, the claimed step and doubling,
the convergence test |estimate - previous| < 2^(-p) with estimate
(a+b)^2/(4t), and the final estimate as result. -/
theorem const_pi_agm_matches_spec (sqrtF : ℚ → ℚ) (p fuel : Nat) :
    (constPiPrec exactRnd (liftSqrt sqrtF) p fuel).map Mpf.val
      = constPiSpec sqrtF p fuel ∧
    (constPiZeroCompute exactRnd (liftSqrt sqrtF) p fuel).map Mpf.val
      = constPiSpec sqrtF p fuel :=
  ⟨constPiPrec_exact_spec sqrtF p fuel, constPiZeroCompute_exact_spec sqrtF p fuel⟩

/-- In exact arithmetic the source's AGM step computes exactly the
spec's recurrence. -/
theorem agmStep_exact_corr (sqrtF : ℚ → ℚ) (two : Mpf) (h2 : two.val = 2)
    (v : AgmVars) (ab : ℚ × ℚ) (h : AgmCorr v ab) :
    AgmCorr (agmStep exactRnd (liftSqrt sqrtF) two v)
      ((ab.1 + ab.2) / 2, sqrtF (ab.1 * ab.2)) := by
  obtain ⟨ha, hb⟩ := h
  refine ⟨?_, ?_⟩ <;>
    simp only [agmStep, opAssign_exact, addOp_exact_val, divOp_exact_val,
      mulOp_exact_val, sqrtFn_exact_val, ha, hb, h2]

/-- In exact arithmetic the source's AGM loop agrees with the spec loop
at every fuel: same step, same pre-update convergence test, same final
pair. -/
theorem agmLoop_exact_corr (sqrtF : ℚ → ℚ) (two eps : Mpf) (h2 : two.val = 2) :
    ∀ (fuel : Nat) (v : AgmVars) (ab : ℚ × ℚ), AgmCorr v ab →
      (agmLoop exactRnd (liftSqrt sqrtF) two eps fuel v).map (fun w => (w.a.val, w.b.val))
        = agmSpecLoop sqrtF eps.val fuel ab.1 ab.2 := by
  intro fuel
  induction fuel with
  | zero => intro v ab _; rfl
  | succ n ih =>
    intro v ab h
    obtain ⟨ha, hb⟩ := h
    have hstep := agmStep_exact_corr sqrtF two h2 v ab ⟨ha, hb⟩
    rw [agmLoop, agmSpecLoop]
    have hcv : ltOp (absFn (subOp exactRnd v.a v.b)) eps
        = decide (|ab.1 - ab.2| < eps.val) := by
      simp only [ltOp_eq_decide, absFn_val, subOp_exact_val, ha, hb]
    rw [hcv]
    by_cases hc : |ab.1 - ab.2| < eps.val
    · rw [if_pos (decide_eq_true hc), if_pos hc]
      exact congrArg some (Prod.ext hstep.1 hstep.2)
    · rw [if_neg (by simp [hc]), if_neg hc]
      exact ih _ ((ab.1 + ab.2) / 2, sqrtF (ab.1 * ab.2)) hstep

/-- In exact arithmetic const_log2(mp_bitcnt_t) computes exactly the
claimed AGM recurrence and result, with epsilon 2^(-p). -/
theorem constLog2Prec_exact_spec (sqrtF : ℚ → ℚ) (p fuel : Nat) :
    (constLog2Prec exactRnd (liftSqrt sqrtF) p fuel).map Mpf.val
      = constLog2SpecP sqrtF p fuel := by
  have hloop := agmLoop_exact_corr sqrtF (fromDoublePrec 2 p)
    (Mpf.div2exp (copyCtor exactRnd (fromDoublePrec 1 p)) p) rfl fuel
    (log2InitVarsP exactRnd p) (1, 1 / 2 ^ (p / 2 - 2)) ⟨rfl, rfl⟩
  rw [show (Mpf.div2exp (copyCtor exactRnd (fromDoublePrec 1 p)) p).val
    = 1 / 2 ^ p from rfl] at hloop
  have hpi := constPiPrec_exact_spec sqrtF p fuel
  simp only [constLog2Prec, constLog2SpecP]
  rw [← hloop, ← hpi]
  cases agmLoop exactRnd (liftSqrt sqrtF) (fromDoublePrec 2 p)
      (Mpf.div2exp (copyCtor exactRnd (fromDoublePrec 1 p)) p) fuel
      (log2InitVarsP exactRnd p) with
  | none => rfl
  | some v2 =>
    cases constPiPrec exactRnd (liftSqrt sqrtF) p fuel with
    | none => rfl
    | some piV => rfl

/-- In exact arithmetic the zero-argument const_log2 recompute body runs
the same AGM recurrence and result formula, but with epsilon
2^(-(p/2 - 2)), which is also its initial b. -/
theorem constLog2ZeroBody_exact_spec (sqrtF : ℚ → ℚ) (dp fuel : Nat) (piV : Mpf) :
    (constLog2ZeroBody exactRnd (liftSqrt sqrtF) dp fuel piV).map Mpf.val
      = constLog2SpecZ sqrtF dp fuel piV.val := by
  have hloop := agmLoop_exact_corr sqrtF (fromDouble dp 2)
    (log2ZeroEpsilon exactRnd dp) rfl fuel
    ({ a := copyCtor exactRnd (fromDouble dp 1),
       b := copyCtor exactRnd (log2ZeroEpsilon exactRnd dp),
       aNext := mpfInit dp, bNext := mpfInit dp } : AgmVars)
    (1, 1 / 2 ^ (dp / 2 - 2)) ⟨rfl, rfl⟩
  rw [show (log2ZeroEpsilon exactRnd dp).val = 1 / 2 ^ (dp / 2 - 2) from rfl] at hloop
  simp only [constLog2ZeroBody, constLog2SpecZ]
  rw [← hloop]
  cases agmLoop exactRnd (liftSqrt sqrtF) (fromDouble dp 2)
      (log2ZeroEpsilon exactRnd dp) fuel
      ({ a := copyCtor exactRnd (fromDouble dp 1),
         b := copyCtor exactRnd (log2ZeroEpsilon exactRnd dp),
         aNext := mpfInit dp, bNext := mpfInit dp } : AgmVars) with
  | none => rfl
  | some v2 => rfl

/-- Counterexample to C6 as stated: the zero-argument const_log2() at
default precision 8 uses epsilon = 2^(-(8/2 - 2)) = 1/4, not 2^(-8). -/
theorem const_log2_epsilon_counterexample :
    (log2ZeroEpsilon exactRnd 8).val = 1 / 2 ^ 2 ∧
    (log2ZeroEpsilon exactRnd 8).val ≠ 1 / 2 ^ 8 := by
  constructor <;>
    norm_num [log2ZeroEpsilon, copyCtor, mpfSet, mpfInit2, fromDouble, exactRnd,
      Mpf.div2exp]

/-- C6 as amended: const_log2 initializes the AGM with a = 1 and
b = 2^(-(p/2 - 2)), iterates a to (a+b)/2 and b to sqrt(a*b), and
returns pi / (p * a_final) with pi obtained at the same working
precision; the precision-argument form stops on |a - b| < 2^(-p) as the
claim states, while the zero-argument form instead stops on
|a - b| < 2^(-(p/2 - 2)) (its epsilon equals its initial b). -/
theorem const_log2_agm_amended (sqrtF : ℚ → ℚ) (p fuel : Nat) (piV : Mpf) :
    (constLog2Prec exactRnd (liftSqrt sqrtF) p fuel).map Mpf.val
      = constLog2SpecP sqrtF p fuel ∧
    (constLog2ZeroBody exactRnd (liftSqrt sqrtF) p fuel piV).map Mpf.val
      = constLog2SpecZ sqrtF p fuel piV.val ∧
    (log2ZeroEpsilon exactRnd p).val = 1 / 2 ^ (p / 2 - 2) :=
  ⟨constLog2Prec_exact_spec sqrtF p fuel,
   constLog2ZeroBody_exact_spec sqrtF p fuel piV, rfl⟩

/-- Two modelled mpf values agree when their precision and value agree. -/
theorem Mpf.ext2 (a b : Mpf) (h1 : a.prec = b.prec) (h2 : a.val = b.val) : a = b := by
  cases a; cases b; simp_all

@[simp] theorem opAssign_prec (rnd : Nat → ℚ → ℚ) (x y : Mpf) :
    (opAssign rnd x y).prec = x.prec := rfl

@[simp] theorem copyCtor_prec (rnd : Nat → ℚ → ℚ) (x : Mpf) :
    (copyCtor rnd x).prec = x.prec := rfl

@[simp] theorem mul2exp_prec (x : Mpf) (e : Nat) : (Mpf.mul2exp x e).prec = x.prec := rfl

@[simp] theorem div2exp_prec (x : Mpf) (e : Nat) : (Mpf.div2exp x e).prec = x.prec := rfl

@[simp] theorem mul2exp_val (x : Mpf) (e : Nat) :
    (Mpf.mul2exp x e).val = x.val * 2 ^ e := rfl

@[simp] theorem div2exp_val (x : Mpf) (e : Nat) :
    (Mpf.div2exp x e).val = x.val / 2 ^ e := rfl

/-- The series loop of exp only ever assigns into its accumulator, so it
keeps the accumulator's precision. -/
theorem expSeries_prec (rnd : Nat → ℚ → ℚ) (req : Nat) (one r : Mpf) :
    ∀ (i : Nat) (e : Mpf), (expSeries rnd req one r i e).prec = e.prec := by
  intro i
  induction i with
  | zero => intro e; rfl
  | succ n ih => intro e; rw [expSeries, ih]; rfl

/-- The squaring loop of exp keeps the accumulator's precision. -/
theorem expSquare_prec (rnd : Nat → ℚ → ℚ) :
    ∀ (k : Nat) (e : Mpf), (expSquare rnd k e).prec = e.prec := by
  intro k
  induction k with
  | zero => intro e; rfl
  | succ n ih => intro e; rw [expSquare, ih]; rfl

/-- In exact arithmetic the series loop of exp computes the spec's
backward recurrence with divisors i down to 1. -/
theorem expSeries_exact_val (req : Nat) (one : Mpf) (hone : one.val = 1) :
    ∀ (r : Mpf) (i : Nat) (e : Mpf),
      (expSeries exactRnd req one r i e).val = expSeriesQ r.val i e.val := by
  intro r i
  induction i with
  | zero => intro e; rfl
  | succ n ih =>
    intro e
    rw [expSeries, expSeriesQ, ih]
    congr 1
    simp only [opAssign_exact, addOp_exact_val, divOp_exact_val, mulOp_exact_val,
      fromSiPrec, hone]
    push_cast
    ring

/-- In exact arithmetic the squaring loop of exp computes the spec's
repeated squaring. -/
theorem expSquare_exact_val :
    ∀ (k : Nat) (e : Mpf), (expSquare exactRnd k e).val = expSquareQ k e.val := by
  intro k
  induction k with
  | zero => intro e; rfl
  | succ n ih =>
    intro e
    rw [expSquare, expSquareQ, ih]
    congr 1

@[simp] theorem fromDoublePrec_prec (d : ℚ) (p : Nat) :
    (fromDoublePrec d p).prec = p := rfl

/-- For every rounding behaviour and every input, exp's result carries
the input's precision: the accumulator starts as a copy of one at
req_precision and every later mutation preserves its precision. -/
theorem expBody_prec (rnd : Nat → ℚ → ℚ) (g : ℚ → ℤ) (dp : Nat) (x L : Mpf) :
    (expBody rnd g dp x L).prec = x.prec := by
  simp [expBody, apply_ite Mpf.prec, expSeries_prec, expSquare_prec]

/-- In exact arithmetic the range reduction of exp produces: the binary
exponent k of the (nonnegative) argument when positive, the floor of the
quotient of the scaled argument by the SCALED log2, the series length
req/k, and the remainder against the scaled log2; for k <= 0 it leaves
the argument unreduced. -/
theorem expReduce_exact (g : ℚ → ℤ) (dp req : Nat) (xA log2L r0 : Mpf) :
    expReduce exactRnd g dp req xA log2L r0 =
      if 0 < g xA.val then
        { k := g xA.val,
          n := ⌊(xA.val / 2 ^ (g xA.val).toNat) / (log2L.val / 2 ^ (g xA.val).toNat)⌋,
          l := req / (g xA.val).toNat,
          r := ⟨r0.prec, xA.val / 2 ^ (g xA.val).toNat
            - (log2L.val / 2 ^ (g xA.val).toNat) *
              (⌊(xA.val / 2 ^ (g xA.val).toNat) / (log2L.val / 2 ^ (g xA.val).toNat)⌋ : ℤ)⟩ }
      else { k := 0, n := 0, l := req, r := ⟨r0.prec, xA.val⟩ } := by
  unfold expReduce
  by_cases hk : 0 < g xA.val
  · rw [if_pos hk, if_pos hk]
    simp only [ExpRed.mk.injEq, Mpf.div2exp, floorFn, Mpf.getSi, divOp_exact_val,
      subOp_exact_val, opAssign_exact, mulSi, mpfMul, fromSi, mpfInit2, exactRnd,
      Int.floor_intCast, Mpf.mk.injEq]
  · rw [if_neg hk, if_neg hk]
    rfl

/-- In exact arithmetic exp computes exactly the amended specification
value. -/
theorem expBody_exact_val (g : ℚ → ℤ) (dp p : Nat) (x L : ℚ) :
    (expBody exactRnd g dp ⟨p, x⟩ ⟨p, L⟩).val = expSpecAmended g p x L := by
  by_cases hx : x < 0
  · simp only [expBody, expSpecAmended, ltOp_eq_decide, copyCtor_exact, opAssign_exact,
      negOp, fromDoublePrec, hx, decide_True, if_true, expReduce_exact]
    by_cases hk : 0 < g (-x)
    · norm_num [hk, divOp_exact_val, apply_ite Mpf.val, mul2exp_val, div2exp_val,
        expSquare_exact_val, expSeries_exact_val p ⟨p, 1⟩ rfl,
        fromDoublePrec, mul_comm]
    · norm_num [hk, divOp_exact_val, apply_ite Mpf.val, mul2exp_val, div2exp_val,
        expSquare_exact_val, expSeries_exact_val p ⟨p, 1⟩ rfl,
        fromDoublePrec, mul_comm]
  · simp only [expBody, expSpecAmended, ltOp_eq_decide, copyCtor_exact, opAssign_exact,
      negOp, fromDoublePrec, hx, decide_False, if_false, expReduce_exact]
    by_cases hk : 0 < g x
    · norm_num [hk, divOp_exact_val, apply_ite Mpf.val, mul2exp_val, div2exp_val,
        expSquare_exact_val, expSeries_exact_val p ⟨p, 1⟩ rfl,
        fromDoublePrec, mul_comm]
    · norm_num [hk, divOp_exact_val, apply_ite Mpf.val, mul2exp_val, div2exp_val,
        expSquare_exact_val, expSeries_exact_val p ⟨p, 1⟩ rfl,
        fromDoublePrec, mul_comm]

/-- Counterexample to C7 as stated: at x = 3 the halving count is k = 2
(2^1 <= |3| < 2^2), and with the computed log2 value 0.693 the source
computes n = floor((x/2^k) / (log2/2^k)) = floor(x/log2) = 4, because it
divides log2 by 2^k as well, while the claim's formula
n = floor((x/2^k)/log2) gives 1.  Moreover the source's series loop uses
the divisor i (for l = 1, r = 1/2 it yields 1 + r = 3/2), not the
claim's divisor i+1 (which would yield 1 + r/2 = 5/4). -/
theorem exp_range_reduction_counterexample :
    ((2 : ℚ) ^ (1 : Nat) ≤ |(3 : ℚ)| ∧ |(3 : ℚ)| < 2 ^ (2 : Nat)) ∧
    (expReduce exactRnd (fun _ => 2) 64 64 ⟨64, 3⟩ ⟨64, 693 / 1000⟩ ⟨64, 0⟩).n = 4 ∧
    expSpecClaimN 3 (693 / 1000) 2 = 1 ∧
    (expReduce exactRnd (fun _ => 2) 64 64 ⟨64, 3⟩ ⟨64, 693 / 1000⟩ ⟨64, 0⟩).n
      ≠ expSpecClaimN 3 (693 / 1000) 2 ∧
    (expSeries exactRnd 4 ⟨4, 1⟩ ⟨4, 1 / 2⟩ 1 ⟨4, 1⟩).val = 3 / 2 ∧
    expSpecClaimSeriesQ (1 / 2) 1 1 = 5 / 4 ∧
    (expSeries exactRnd 4 ⟨4, 1⟩ ⟨4, 1 / 2⟩ 1 ⟨4, 1⟩).val
      ≠ expSpecClaimSeriesQ (1 / 2) 1 1 := by
  have h1 : (expReduce exactRnd (fun _ => 2) 64 64
      ⟨64, 3⟩ ⟨64, 693 / 1000⟩ ⟨64, 0⟩).n = 4 := by
    rw [expReduce_exact]
    norm_num [Int.floor_eq_iff, show ((2 : ℤ)).toNat = 2 from rfl]
  have h2 : expSpecClaimN 3 (693 / 1000) 2 = 1 := by
    rw [expSpecClaimN]
    norm_num [Int.floor_eq_iff, show ((2 : ℤ)).toNat = 2 from rfl]
  have h3 : (expSeries exactRnd 4 ⟨4, 1⟩ ⟨4, 1 / 2⟩ 1 ⟨4, 1⟩).val = 3 / 2 := by
    norm_num [expSeries, opAssign, copyCtor, mpfSet, mpfInit2, addOp, divOp, mulOp,
      mpfAdd, mpfDiv, mpfMul, largerprec, fromSiPrec, exactRnd]
  have h4 : expSpecClaimSeriesQ (1 / 2) 1 1 = 5 / 4 := by
    norm_num [expSpecClaimSeriesQ]
  refine ⟨⟨by norm_num, by norm_num⟩, h1, h2, ?_, h3, h4, ?_⟩
  · rw [h1, h2]
    norm_num
  · rw [h3, h4]
    norm_num

/-- C7 as amended: exp range-reduces with the binary exponent k of |x|;
for k > 0 it scales BOTH |x| and log2 by 2^(-k), so n is the floor of
(|x|/2^k)/(log2/2^k) (equivalently floor(|x|/log2)) and the remainder is
taken against the scaled log2; for k <= 0 there is no reduction
(n = 0, r = |x|, l = p).  The backward recurrence uses divisors i from
l down to 1 (E = 1 + r E / i), the result is squared k times, shifted by
2^n, and a negative x yields the reciprocal of exp(|x|); the result
precision equals the input precision. -/
theorem exp_matches_amended_spec (g : ℚ → ℤ) (dp p : Nat) (x L : ℚ) :
    expBody exactRnd g dp ⟨p, x⟩ ⟨p, L⟩ = ⟨p, expSpecAmended g p x L⟩ ∧
    (∀ (rnd : Nat → ℚ → ℚ) (g2 : ℚ → ℤ) (dp2 : Nat) (xM LM : Mpf),
      (expBody rnd g2 dp2 xM LM).prec = xM.prec) ∧
    (∀ (rnd sqrtE : Nat → ℚ → ℚ) (g2 : ℚ → ℤ) (dp2 fuel : Nat) (xM r : Mpf),
      expMpf rnd sqrtE g2 dp2 xM fuel = some r → r.prec = xM.prec) := by
  refine ⟨Mpf.ext2 _ _ (expBody_prec exactRnd g dp ⟨p, x⟩ ⟨p, L⟩)
    (expBody_exact_val g dp p x L),
    fun rnd g2 dp2 xM LM => expBody_prec rnd g2 dp2 xM LM, ?_⟩
  intro rnd sqrtE g2 dp2 fuel xM r h
  simp only [expMpf] at h
  split at h
  · cases h
    exact expBody_prec rnd g2 dp2 xM _
  · exact absurd h (by simp)

/-- Witness for the amended C7 on a concrete engine: exp of a value of
precision 4 produces a value of precision 4. -/
theorem exp_matches_amended_spec_witness :
    expMpf exactRnd (liftSqrt sqrtOne) (fun _ => 0) 5 ⟨4, 3⟩ 8 = some ⟨4, 131 / 8⟩ ∧
    (⟨4, (131 : ℚ) / 8⟩ : Mpf).prec = 4 := by
  have hrun : expMpf exactRnd (liftSqrt sqrtOne) (fun _ => 0) 5 ⟨4, 3⟩ 8 =
      some ⟨4, 131 / 8⟩ := by
    norm_num [expMpf, expBody, expReduce, expSeries, expSquare, constPiPrec,
      constLog2Prec, piInitVarsP, piLoopP, piStepP, piStep, log2InitVarsP, agmLoop,
      agmStep, opAssign, copyCtor, mpfSet, mpfInit2, addOp, subOp, mulOp, divOp,
      mpfAdd, mpfSub, mpfMul, mpfDiv, sqrtFn, mpfSqrt, largerprec, fromDoublePrec,
      fromUiPrec, fromSi, fromSiPrec, mulSi, negOp, exactRnd, liftSqrt, sqrtOne,
      ltOp, absFn, Mpf.div2exp, Mpf.mul2exp, Mpf.mul2expZ, abs_lt]
  exact ⟨hrun,
    (exp_matches_amended_spec (fun _ => 0) 5 4 3 (1 : ℚ)).2.2 exactRnd
      (liftSqrt sqrtOne) (fun _ => 0) 5 8 ⟨4, 3⟩ ⟨4, 131 / 8⟩ hrun⟩

end GmpxxMkII
